import Mathlib

/-!
Verification of the CTC speech-transcription notebook (`seq_crnn.ipynb`).

The development shallowly embeds the vocabulary utilities, the greedy CTC
decoder, the batch assembly (`SpeechDataset.__getitem__` plus
`custom_collate_fn`), the shape semantics of the `CRNN` encoder, the
character/word error-rate metrics, and the loss aggregation of
`train_and_validate`.  Python strings are modelled as `List Char`, tensors of
scores as nested lists over `Int`, real-valued losses and rates as `ℚ`.
Library primitives used by the notebook (`torch.argmax`, `pad_sequence`,
`Levenshtein.distance`, `nn.CTCLoss` with `zero_infinity`) are given their
documented semantics.
-/

namespace STT

/-! ## Vocabulary (`build_vocab`, `encode_label`, `decode_label`) -/

/-- Alphabet string of `build_vocab`: `"abcdefghijklmnopqrstuvwxyz "`. -/
def alphabet : List Char := "abcdefghijklmnopqrstuvwxyz ".toList

/-- Association list of the dictionary built by `build_vocab`: the pair
`("<blank>", 0)` followed by the letters enumerated from 1, in insertion
order.  Symbols are kept as `List Char` so that the multi-character
`"<blank>"` key and the single-character keys live in one type. -/
def vocabList : List (List Char × Nat) :=
  ("<blank>".toList, 0) :: alphabet.enum.map (fun p => ([p.2], p.1 + 1))

/-- Dictionary lookup `vocab[char]` for a single character key; `none` models
a Python `KeyError`. -/
def vocabGet (c : Char) : Option Nat :=
  (vocabList.find? (fun p => p.1 = [c])).map (·.2)

/-- Lookup in the inverse dictionary `inv_vocab = {v: k for k, v in vocab.items()}`;
`none` models a `KeyError`.  Keys of `vocabList` are distinct, so the inverse
of the first matching pair is the dictionary inverse. -/
def invGet (n : Nat) : Option (List Char) :=
  (vocabList.find? (fun p => p.2 = n)).map (·.1)

/-- Embedding of `encode_label`: `[vocab[char] for char in label]`, failing on
a character outside the vocabulary. -/
def encode_label : List Char → Option (List Nat)
  | [] => some []
  | c :: rest =>
    match vocabGet c, encode_label rest with
    | some n, some r => some (n :: r)
    | _, _ => none

/-- Embedding of `decode_label`: join of `inv_vocab[id]` over the ids that are
not in `(0, 1)`, failing on an id outside the inverse vocabulary. -/
def decode_label : List Nat → Option (List Char)
  | [] => some []
  | id :: rest =>
    if id = 0 ∨ id = 1 then decode_label rest
    else
      match invGet id, decode_label rest with
      | some s, some r => some (s ++ r)
      | _, _ => none

/-- Embedding of the validation loop's target reconstruction
(`train_and_validate`): join of `inv_vocab.get(id, '')` over the ids of a
label tensor that are not in `(0, 1)`; a missing id contributes the empty
string instead of raising. -/
def valTarget : List Nat → List Char
  | [] => []
  | id :: rest =>
    if id = 0 ∨ id = 1 then valTarget rest
    else (invGet id).getD [] ++ valTarget rest

/-- Vocabulary size `VOCAB_SIZE = len(vocab)` (28: blank + 26 letters + space). -/
def VOCAB_SIZE : Nat := vocabList.length

/-! ## Greedy CTC decoder (`greedy_decoder`) -/

/-- Tail of `torch.argmax` over one score row: scan the remaining entries,
replacing the running best index only on a strictly larger value, so the
first maximal entry wins (the documented tie-breaking of `torch.argmax`). -/
def argmaxAux : List Int → Nat → Int → Nat → Nat
  | [], _, _, best => best
  | v :: rest, i, bestV, best =>
    if bestV < v then argmaxAux rest (i + 1) v i
    else argmaxAux rest (i + 1) bestV best

/-- Index of the first maximal entry of a score row (`torch.argmax` on the
class axis).  The empty row does not occur for a nonempty vocabulary. -/
def argmaxRow : List Int → Nat
  | [] => 0
  | v :: rest => argmaxAux rest 1 v 0

/-- Inner loop of `greedy_decoder` on one raw arg-max path, carrying the
previous raw element (`args[j - 1]`; `none` at `j = 0`): an index is kept iff
it differs from `blank_label` and from the previous raw element. -/
def greedyCollapse (blank : Nat) : Option Nat → List Nat → List Nat
  | _, [] => []
  | prev, a :: rest =>
    if a ≠ blank ∧ prev ≠ some a then a :: greedyCollapse blank (some a) rest
    else greedyCollapse blank (some a) rest

/-- Sequence of indices kept by `greedy_decoder` for one raw arg-max path. -/
def decodePath (blank : Nat) (args : List Nat) : List Nat :=
  greedyCollapse blank none args

/-- Embedding of `greedy_decoder`: arg-max over the class axis of a
`[N, T', V]` score tensor, per-sample collapse, then join of `labels[k]`
over the kept indices (`labels` is the inverse vocabulary passed in by the
callers). -/
def greedy_decoder (output : List (List (List Int))) (labels : Nat → List Char)
    (blank_label : Nat) : List (List Char) :=
  output.map fun sample =>
    ((decodePath blank_label (sample.map argmaxRow)).map labels).flatten

/-! ## Spec-side decoding rule for the refinement claim C1 -/

/-- Modelled from the spec: tail of run collapapsing — drop an element equal to
the previous raw element, keep only the first occurrence of each run. -/
def collapseRunsAux : Nat → List Nat → List Nat
  | _, [] => []
  | prev, a :: rest =>
    if a = prev then collapseRunsAux prev rest else a :: collapseRunsAux a rest

/-- Modelled from the spec: collapse consecutive repeated indices of a raw
path, keeping only the first occurrence of each run. -/
def collapseRuns : List Nat → List Nat
  | [] => []
  | a :: rest => a :: collapseRunsAux a rest

/-- Modelled from the spec: decoding rule of §4.4 — collapse consecutive
repeats first, then remove every remaining occurrence of the blank index. -/
def specDecode (blank : Nat) (p : List Nat) : List Nat :=
  (collapseRuns p).filter (fun x => x ≠ blank)

theorem greedyCollapse_eq_filter_collapse (blank : Nat) :
    ∀ (l : List Nat) (prev : Nat),
      greedyCollapse blank (some prev) l =
        (collapseRunsAux prev l).filter (fun x => x ≠ blank) := by
  intro l
  induction l with
  | nil => intro prev; rfl
  | cons a rest ih =>
    intro prev
    by_cases hap : a = prev
    · subst hap
      simp [greedyCollapse, collapseRunsAux, ih]
    · by_cases hb : a = blank
      · subst hb
        simp [greedyCollapse, collapseRunsAux, hap, Ne.symm hap, ih]
      · simp [greedyCollapse, collapseRunsAux, hap, hb, Ne.symm hap, ih]

theorem decodePath_eq_specDecode (blank : Nat) (l : List Nat) :
    decodePath blank l = specDecode blank l := by
  cases l with
  | nil => rfl
  | cons a rest =>
    by_cases hb : a = blank
    · subst hb
      simp [decodePath, specDecode, greedyCollapse, collapseRuns,
        greedyCollapse_eq_filter_collapse]
    · simp [decodePath, specDecode, greedyCollapse, collapseRuns, hb,
        greedyCollapse_eq_filter_collapse]

/-- C1: for every score tensor and every sample in the batch,
`greedy_decoder` returns exactly the join, through the inverse vocabulary, of
the raw arg-max path after collapsing consecutive repeats (keeping the first
element of each run) and removing the remaining blanks; moreover the raw path
`[0, 3, 3, 0, 5, 5, 5, 0]` with blank 0 decodes to `[3, 5]` and the raw path
`[3, 3, 0, 3]` decodes to `[3, 3]`. -/
theorem greedy_decoder_is_collapse_then_deblank :
    (∀ (output : List (List (List Int))) (labels : Nat → List Char),
      greedy_decoder output labels 0 =
        output.map fun sample =>
          ((specDecode 0 (sample.map argmaxRow)).map labels).flatten) ∧
    decodePath 0 [0, 3, 3, 0, 5, 5, 5, 0] = [3, 5] ∧
    decodePath 0 [3, 3, 0, 3] = [3, 3] := by
  refine ⟨fun output labels => ?_, by decide, by decide⟩
  simp [greedy_decoder, decodePath_eq_specDecode]

/-! ## Round-trip of spike paths (C2) -/

/-- Raw arg-max path that emits one spike per symbol: each pair `(g, s)`
contributes `g` blank timesteps followed by one timestep of symbol `s`. -/
def spikes : List (Nat × Nat) → List Nat
  | [] => []
  | (g, s) :: rest => List.replicate g 0 ++ s :: spikes rest

theorem greedyCollapse_replicate_blank (rest : List Nat) :
    ∀ (g : Nat) (prev : Option Nat),
      greedyCollapse 0 prev (List.replicate (g + 1) 0 ++ rest) =
        greedyCollapse 0 (some 0) rest := by
  intro g
  induction g with
  | zero => intro prev; simp [greedyCollapse]
  | succ g ih =>
    intro prev
    simpa [List.replicate_succ, greedyCollapse] using ih (some 0)

theorem greedyCollapse_spikes :
    ∀ (ps : List (Nat × Nat)), (∀ p ∈ ps, p.2 ≠ 0 ∧ 1 ≤ p.1) →
      ∀ prev : Option Nat, greedyCollapse 0 prev (spikes ps) = ps.map Prod.snd := by
  intro ps
  induction ps with
  | nil => intro _ prev; rfl
  | cons p rest ih =>
    intro hps prev
    obtain ⟨g, s⟩ := p
    obtain ⟨hs, hg⟩ := hps (g, s) (by simp)
    obtain ⟨g, rfl⟩ := Nat.exists_eq_add_of_le hg
    rw [spikes, Nat.add_comm 1 g, greedyCollapse_replicate_blank]
    have hkeep : s ≠ 0 ∧ (some 0 : Option Nat) ≠ some s := by
      exact ⟨hs, by simpa using fun h => hs h.symm⟩
    simp only [greedyCollapse, if_pos hkeep, List.map_cons]
    exact congrArg (s :: ·) (ih (fun q hq => hps q (List.mem_cons_of_mem _ hq)) (some s))

/-- C2: for every label sequence without the blank code and without two
adjacent equal symbols, a raw arg-max path emitting one spike per symbol with
at least one blank timestep between consecutive spikes decodes, under the
decoding rule of `greedy_decoder`, to exactly the original label sequence. -/
theorem spikes_roundtrip (ps : List (Nat × Nat))
    (hsym : ∀ p ∈ ps, p.2 ≠ 0)
    (hgap : ∀ p ∈ ps.tail, 1 ≤ p.1)
    (_hadj : List.Chain' (fun a b => a ≠ b) (ps.map Prod.snd)) :
    decodePath 0 (spikes ps) = ps.map Prod.snd := by
  cases ps with
  | nil => rfl
  | cons p rest =>
    obtain ⟨g, s⟩ := p
    have hs : s ≠ 0 := (hsym (g, s) (by simp))
    have hrest : ∀ q ∈ rest, q.2 ≠ 0 ∧ 1 ≤ q.1 := by
      intro q hq
      exact ⟨hsym q (List.mem_cons_of_mem _ hq), hgap q hq⟩
    have htail : greedyCollapse 0 (some s) (spikes rest) = rest.map Prod.snd :=
      greedyCollapse_spikes rest hrest (some s)
    cases g with
    | zero =>
      have hkeep : s ≠ 0 ∧ (none : Option Nat) ≠ some s := ⟨hs, by simp⟩
      simp only [decodePath, spikes, List.replicate_zero, List.nil_append,
        greedyCollapse, if_pos hkeep, List.map_cons]
      exact congrArg (s :: ·) htail
    | succ g =>
      have hkeep : s ≠ 0 ∧ (some 0 : Option Nat) ≠ some s := by
        exact ⟨hs, by simpa using fun h => hs h.symm⟩
      rw [decodePath, spikes, greedyCollapse_replicate_blank]
      simp only [greedyCollapse, if_pos hkeep, List.map_cons]
      exact congrArg (s :: ·) htail

theorem spikes_roundtrip_witness :
    decodePath 0 (spikes [(0, 3), (2, 5), (1, 3)]) =
      List.map Prod.snd [(0, 3), (2, 5), (1, 3)] :=
  spikes_roundtrip [(0, 3), (2, 5), (1, 3)] (by decide) (by decide) (by simp)

/-! ## Length bound and blank removal (C3) -/

theorem greedyCollapse_length_le (blank : Nat) :
    ∀ (l : List Nat) (prev : Option Nat),
      (greedyCollapse blank prev l).length ≤ l.length := by
  intro l
  induction l with
  | nil => intro prev; simp [greedyCollapse]
  | cons a rest ih =>
    intro prev
    by_cases h : a ≠ blank ∧ prev ≠ some a
    · simpa [greedyCollapse, if_pos h] using ih (some a)
    · simp only [greedyCollapse, if_neg h, List.length_cons]
      exact Nat.le_succ_of_le (ih (some a))

theorem greedyCollapse_blank_not_mem (blank : Nat) :
    ∀ (l : List Nat) (prev : Option Nat), blank ∉ greedyCollapse blank prev l := by
  intro l
  induction l with
  | nil => intro prev; simp [greedyCollapse]
  | cons a rest ih =>
    intro prev
    by_cases h : a ≠ blank ∧ prev ≠ some a
    · simp only [greedyCollapse, if_pos h, List.mem_cons]
      rintro (rfl | hmem)
      · exact h.1 rfl
      · exact ih (some a) hmem
    · simpa [greedyCollapse, if_neg h] using ih (some a)

/-- C3: for every raw arg-max path, the sequence of indices kept by
`greedy_decoder` is at most as long as the raw path, and the blank index 0 is
never among the kept indices. -/
theorem decodePath_length_le_and_blank_free (path : List Nat) :
    (decodePath 0 path).length ≤ path.length ∧ 0 ∉ decodePath 0 path :=
  ⟨greedyCollapse_length_le 0 path none, greedyCollapse_blank_not_mem 0 path none⟩

/-! ## Error-rate metrics (`cer`, `wer`) -/

/-- Unit-cost Levenshtein edit distance (insertions, deletions, substitutions),
the documented semantics of the `Levenshtein.distance` library call of the
notebook. -/
def lev : List Char → List Char → Nat
  | [], ys => ys.length
  | x :: xs, [] => (x :: xs).length
  | x :: xs, y :: ys =>
    if x = y then lev xs ys
    else 1 + min (lev xs (y :: ys)) (min (lev (x :: xs) ys) (lev xs ys))
termination_by a b => (a.length, b.length)

theorem lev_self : ∀ s : List Char, lev s s = 0 := by
  intro s
  induction s with
  | nil => simp [lev]
  | cons c rest ih => simp [lev, ih]

/-- Python `str.split()` with no argument: split on runs of whitespace and
drop the empty tokens. -/
def pySplit (s : List Char) : List (List Char) :=
  (s.splitOnP (fun c => c.isWhitespace)).filter (fun w => w ≠ [])

/-- Python `' '.join(words)`: interleave a single space between the tokens. -/
def joinWords (ws : List (List Char)) : List Char :=
  (ws.intersperse [' ']).flatten

/-- Embedding of `cer`: `lev.distance(target, prediction) / max(len(target), 1)`. -/
def cer (target prediction : List Char) : ℚ :=
  (lev target prediction : ℚ) / (max target.length 1 : ℚ)

/-- Embedding of `wer`: split both strings into words, rejoin them with single
spaces, and divide their edit distance by `max(len(target_words), 1)`. -/
def wer (target prediction : List Char) : ℚ :=
  (lev (joinWords (pySplit target)) (joinWords (pySplit prediction)) : ℚ) /
    (max (pySplit target).length 1 : ℚ)

/-- Modelled from the spec: word error rate of §4.5 — the same edit-distance
computation over whitespace-tokenized word sequences, joined with a single
space before the distance computation, divided by the word count of the
target clamped below by one. -/
def werSpec (target prediction : List Char) : ℚ :=
  (lev (joinWords (pySplit target)) (joinWords (pySplit prediction)) : ℚ) /
    (max (pySplit target).length 1 : ℚ)

/-- Modelled from the spec: character error rate of §4.5 — unit-cost edit
distance between the two strings divided by `max(length of target, 1)`. -/
def cerSpec (target prediction : List Char) : ℚ :=
  (lev target prediction : ℚ) / (max target.length 1 : ℚ)

/-- C5: `wer` computes the edit distance between the space-rejoined
whitespace-tokenizations of target and prediction divided by
`max(word count of target, 1)`; the word error rate of any string against
itself is 0, and empty targets and predictions are accepted (the metric is a
total function; on two empty strings it returns 0). -/
theorem wer_matches_spec :
    (∀ target prediction, wer target prediction = werSpec target prediction) ∧
    (∀ s, wer s s = 0) ∧
    wer [] [] = 0 := by
  refine ⟨fun _ _ => rfl, fun s => ?_, by norm_num [wer, lev, joinWords, pySplit]⟩
  simp [wer, lev_self]

/-- C6: `cer` computes the unit-cost edit distance between target and
prediction divided by `max(length of target, 1)`, never dividing by zero; the
character error rate of a string against itself is 0, `cer "cat" "" = 1`, and
`cer "cat" "bat" = 1 / 3`. -/
theorem cer_matches_spec :
    (∀ target prediction, cer target prediction = cerSpec target prediction) ∧
    (∀ s, cer s s = 0) ∧
    cer [] [] = 0 ∧
    cer ['c', 'a', 't'] [] = 1 ∧
    cer ['c', 'a', 't'] ['b', 'a', 't'] = 1 / 3 := by
  refine ⟨fun _ _ => rfl, fun s => by simp [cer, lev_self], ?_, ?_, ?_⟩
  · norm_num [cer, lev]
  · norm_num [cer, lev]
  · have hcb : ('c' : Char) ≠ 'b' := by decide
    norm_num [cer, lev, hcb]

/-! ## Batch assembly (`SpeechDataset.__getitem__`, `custom_collate_fn`) -/

/-- Pad one feature row on the right with zeros to `maxLen`, or truncate it to
`maxLen`, exactly as the `padding_length` branches of `__getitem__` do along
the time axis. -/
def padTruncRow (maxLen : Nat) (row : List Int) : List Int :=
  if maxLen ≤ row.length then row.take maxLen
  else row ++ List.replicate (maxLen - row.length) 0

/-- One item returned by `SpeechDataset.__getitem__`: the padded/truncated
feature tensor of shape `[1, C, max_length_frames]` (after `np.expand_dims`),
the encoded label, the reported input length and the label length. -/
structure Sample where
  mfccs : List (List (List Int))
  label : List Nat
  input_length : Nat
  label_length : Nat
deriving DecidableEq, Repr

/-- Embedding of `SpeechDataset.__getitem__` on an already-read feature matrix
(shape `[C, T]`) and already-encoded label: every row is padded or truncated
to `max_length_frames`, a leading singleton dimension is added, and the
reported `input_length` is `self.max_length_frames` while `label_length` is
the true label length. -/
def dataset_getitem (max_length_frames : Nat) (mfccs : List (List Int))
    (label : List Nat) : Sample where
  mfccs := [mfccs.map (padTruncRow max_length_frames)]
  label := label
  input_length := max_length_frames
  label_length := label.length

/-- Right-pad every sequence of the batch to the longest one, the documented
semantics of `torch.nn.utils.rnn.pad_sequence` with `batch_first=True`.  The
pad element is a parameter; for the feature tensors it is never used because
`__getitem__` gives every tensor the same leading dimension 1. -/
def pad_sequence {α : Type} (padding_value : α) (seqs : List (List α)) :
    List (List α) :=
  let maxLen := (seqs.map List.length).foldr max 0
  seqs.map fun s => s ++ List.replicate (maxLen - s.length) padding_value

/-- Batch returned by `custom_collate_fn`. -/
structure CollatedBatch where
  mfccs_padded : List (List (List (List Int)))
  labels_padded : List (List Nat)
  input_lengths : List Nat
  label_lengths : List Nat
deriving DecidableEq, Repr

/-- Embedding of `custom_collate_fn`: unpacking `zip(*batch)` raises on an
empty batch (`none`); otherwise the feature tensors and labels are padded
with `pad_sequence` and the two length vectors are collected unchanged. -/
def custom_collate_fn (batch : List Sample) : Option CollatedBatch :=
  if batch.isEmpty then none
  else
    some
      { mfccs_padded := pad_sequence [] (batch.map Sample.mfccs)
        labels_padded := pad_sequence 0 (batch.map Sample.label)
        input_lengths := batch.map Sample.input_length
        label_lengths := batch.map Sample.label_length }

theorem padTruncRow_length (maxLen : Nat) (row : List Int) :
    (padTruncRow maxLen row).length = maxLen := by
  unfold padTruncRow
  by_cases h : maxLen ≤ row.length
  · simp [h]
  · simp only [if_neg h, List.length_append, List.length_replicate]
    omega

theorem map_const_eq_replicate {α β : Type} (b : β) :
    ∀ l : List α, l.map (fun _ => b) = List.replicate l.length b := by
  intro l
  induction l with
  | nil => rfl
  | cons a rest ih => simp [List.replicate_succ, ih]

/-- C4 counterexample: three samples with true input lengths 5, 8 and 3,
collated under a configured cap of 10, yield the input-length vector
`[10, 10, 10]` — the cap, not the true pre-padding lengths `[5, 8, 3]` — and
every feature row of the padded batch has the cap length 10, not 8. -/
theorem collate_reports_cap_not_true_lengths :
    (custom_collate_fn
        [dataset_getitem 10 [List.replicate 5 0] [2],
         dataset_getitem 10 [List.replicate 8 0] [2],
         dataset_getitem 10 [List.replicate 3 0] [2]]).map
        CollatedBatch.input_lengths = some [10, 10, 10] ∧
    ([10, 10, 10] : List Nat) ≠ [5, 8, 3] ∧
    (custom_collate_fn
        [dataset_getitem 10 [List.replicate 5 0] [2],
         dataset_getitem 10 [List.replicate 8 0] [2],
         dataset_getitem 10 [List.replicate 3 0] [2]]).map
        (fun b => ((b.mfccs_padded.headD []).headD []).map List.length) =
      some [10] ∧ (10 : Nat) ≠ 8 := by
  refine ⟨by decide, by decide, by decide, by decide⟩

/-- C4 (amended): for every nonempty list of raw samples and every configured
cap, batch assembly succeeds and produces a padded feature stack in which
every feature row has the cap as its time length, and an input-length vector
recording the cap — the padded length — for every sample, not the true
pre-padding input lengths. -/
theorem collate_input_lengths_are_cap (maxLen : Nat)
    (raws : List (List (List Int) × List Nat)) (hne : raws ≠ []) :
    ∃ b, custom_collate_fn (raws.map fun r => dataset_getitem maxLen r.1 r.2) =
        some b ∧
      b.input_lengths = List.replicate raws.length maxLen ∧
      ∀ m ∈ b.mfccs_padded, ∀ ch ∈ m, ∀ row ∈ ch, row.length = maxLen := by
  have hne2 : (raws.map fun r => dataset_getitem maxLen r.1 r.2).isEmpty = false := by
    cases raws with
    | nil => exact absurd rfl hne
    | cons a l => rfl
  refine ⟨_, by rw [custom_collate_fn, hne2]; rfl, ?_, ?_⟩
  · simp only [List.map_map]
    have : ((fun s => s.input_length) ∘ fun r : List (List Int) × List Nat =>
        dataset_getitem maxLen r.1 r.2) = fun _ => maxLen := rfl
    rw [this, map_const_eq_replicate]
  · intro m hm ch hch row hrow
    simp only [pad_sequence, List.map_map, List.mem_map] at hm
    obtain ⟨r, _, rfl⟩ := hm
    rcases List.mem_append.mp hch with hch | hch
    · simp only [Function.comp_apply, dataset_getitem, List.mem_singleton] at hch
      subst hch
      obtain ⟨row0, _, rfl⟩ := List.mem_map.mp hrow
      exact padTruncRow_length maxLen row0
    · have : ch = [] := List.eq_of_mem_replicate hch
      subst this
      exact absurd hrow (List.not_mem_nil row)

theorem collate_input_lengths_are_cap_witness :
    ∃ b, custom_collate_fn
        ([(List.replicate 5 (0 : Int) :: [], [2]),
          ([List.replicate 8 0], [2]),
          ([List.replicate 3 0], [2])].map fun r => dataset_getitem 10 r.1 r.2) =
          some b ∧
      b.input_lengths = List.replicate 3 10 ∧
      ∀ m ∈ b.mfccs_padded, ∀ ch ∈ m, ∀ row ∈ ch, row.length = 10 :=
  collate_input_lengths_are_cap 10
    [([List.replicate 5 0], [2]), ([List.replicate 8 0], [2]),
      ([List.replicate 3 0], [2])] (by decide)

/-- C8 counterexample: a batch containing a single sample whose raw feature
matrix has time length 0 and whose label has length 0 is collated without any
error — batch assembly does not fail on zero lengths. -/
theorem collate_accepts_zero_lengths :
    ¬ custom_collate_fn [dataset_getitem 4 [[]] []] = none := by
  decide

/-- C8 (amended): batch assembly validates nothing but emptiness — it fails
(with the `ValueError` of unpacking `zip(*batch)`) exactly on the empty
batch, and silently produces a batch for every nonempty one, including
batches whose samples have input length 0 or label length 0. -/
theorem collate_fails_only_on_empty_batch :
    custom_collate_fn [] = none ∧
    ∀ batch : List Sample, batch ≠ [] → (custom_collate_fn batch).isSome = true := by
  refine ⟨rfl, fun batch hne => ?_⟩
  have : batch.isEmpty = false := by
    cases batch with
    | nil => exact absurd rfl hne
    | cons a l => rfl
  rw [custom_collate_fn, this]
  rfl

theorem collate_fails_only_on_empty_batch_witness :
    (custom_collate_fn [dataset_getitem 4 [[]] []]).isSome = true :=
  collate_fails_only_on_empty_batch.2 [dataset_getitem 4 [[]] []] (by decide)

/-! ## Shape semantics of the CRNN encoder (`CRNN`) -/

/-- Shape of a 4-D tensor `[batch, channels, height, width]`; the notebook
feeds the CRNN batches of shape `[N, 1, num_mfcc_features, T]` with the time
axis as the width. -/
structure Shape4 where
  n : Nat
  c : Nat
  h : Nat
  w : Nat
deriving DecidableEq, Repr

/-- Output shape of `nn.Conv2d(_, outChannels, kernel_size=k, stride=s,
padding=p)`: both spatial axes map to `(d + 2 p - k) / s + 1`. -/
def conv2dShape (outChannels kernel stride padding : Nat) (s : Shape4) : Shape4 :=
  ⟨s.n, outChannels,
    (s.h + 2 * padding - kernel) / stride + 1,
    (s.w + 2 * padding - kernel) / stride + 1⟩

/-- Output shape of `nn.MaxPool2d(k)` (stride defaults to the kernel size):
both spatial axes map to `(d - k) / k + 1`. -/
def maxPool2dShape (kernel : Nat) (s : Shape4) : Shape4 :=
  ⟨s.n, s.c, (s.h - kernel) / kernel + 1, (s.w - kernel) / kernel + 1⟩

/-- Shape after `self.conv`: two `Conv2d(kernel 3, stride 1, padding 1)` +
`MaxPool2d(2)` stages (batch norm, ReLU and dropout preserve shapes),
with 32 then 64 output channels. -/
def convStackShape (s : Shape4) : Shape4 :=
  maxPool2dShape 2 (conv2dShape 64 3 1 1 (maxPool2dShape 2 (conv2dShape 32 3 1 1 s)))

/-- Output shape of `CRNN.forward`: after `self.conv`, the tensor
`[batch, channels, height, width]` is permuted and flattened to
`[batch, width, channels * height]`, the GRU (`batch_first=True`) keeps
`[batch, width, hidden_size]`, and the final linear layer yields
`[batch, width, VOCAB_SIZE]`. -/
def crnnOutputShape (hidden_size : Nat) (s : Shape4) : Nat × Nat × Nat :=
  let c := convStackShape s
  let rnnOut := (c.n, c.w, hidden_size)
  (rnnOut.1, rnnOut.2.1, VOCAB_SIZE)

/-- Constant number of post-downsampling timesteps that `train_and_validate`
passes to the CTC loss as every sample's input length. -/
def processed_seq_length : Nat := 61

/-- C7: on an input batch of shape `[N, 1, H, T]` with `T ≥ 4`, the CRNN
encoder emits a batch of shape `[N, T / 2 / 2, VOCAB_SIZE]` — the time axis
halved (with floor) by each of the two pooling stages — and for the fixed
input length `T = 247` it emits `247 / 2 / 2 = 61` timesteps, exactly the
constant input length the training loop passes to the CTC loss. -/
theorem crnn_output_shape (N H T hidden_size : Nat) (hT : 4 ≤ T) :
    crnnOutputShape hidden_size ⟨N, 1, H, T⟩ = (N, T / 2 / 2, VOCAB_SIZE) ∧
    (crnnOutputShape hidden_size ⟨N, 1, H, 247⟩).2.1 = processed_seq_length := by
  constructor
  · simp only [crnnOutputShape, convStackShape, conv2dShape, maxPool2dShape,
      Prod.mk.injEq]
    refine ⟨trivial, ?_, trivial⟩
    omega
  · simp [crnnOutputShape, convStackShape, conv2dShape, maxPool2dShape,
      processed_seq_length]

theorem crnn_output_shape_witness :
    crnnOutputShape 256 ⟨2, 1, 13, 247⟩ = (2, 247 / 2 / 2, VOCAB_SIZE) ∧
    (crnnOutputShape 256 ⟨2, 1, 13, 247⟩).2.1 = processed_seq_length :=
  crnn_output_shape 2 13 247 256 (by decide)

/-! ## Loss aggregation and logging of the training loop (`train_and_validate`) -/

/-- Value of one CTC loss evaluation: a finite rational or the non-finite
result a pathological sample produces. -/
inductive LossVal where
  | fin (v : ℚ)
  | infinite
deriving DecidableEq, Repr

/-- Documented semantics of the `zero_infinity` flag of `nn.CTCLoss`:
when enabled, an infinite per-sample loss is replaced by zero. -/
def applyZeroInfinity (zero_infinity : Bool) : LossVal → LossVal
  | .fin v => .fin v
  | .infinite => if zero_infinity then .fin 0 else .infinite

/-- Mean reduction of `nn.CTCLoss` over the per-sample losses of a batch:
infinite if any sample is infinite, otherwise the average. -/
def ctcLossMean (ls : List LossVal) : LossVal :=
  if ls.any (fun l => l = .infinite) then .infinite
  else .fin ((ls.map fun l => match l with | .fin v => v | .infinite => 0).sum / ls.length)

/-- Flag of the criterion built by `train_and_validate`:
`nn.CTCLoss(blank=0, zero_infinity=True)`. -/
def train_zero_infinity : Bool := true

/-- The criterion of `train_and_validate` on the per-sample losses of a batch:
`zero_infinity` is applied to every sample, then the mean reduction. -/
def ctcLossCriterion (zero_infinity : Bool) (sampleLosses : List LossVal) : LossVal :=
  ctcLossMean (sampleLosses.map (applyZeroInfinity zero_infinity))

/-- Sum of two loss values; an infinite summand absorbs. -/
def addLoss : LossVal → LossVal → LossVal
  | .fin a, .fin b => .fin (a + b)
  | _, _ => .infinite

/-- Accumulated `total_train_loss` of one training epoch, abstracting each
batch by the per-sample losses its forward pass produces. -/
def total_train_loss (batches : List (List LossVal)) : LossVal :=
  batches.foldl (fun acc b => addLoss acc (ctcLossCriterion train_zero_infinity b)) (.fin 0)

/-- Events printed by the training phase of one epoch.  The source prints one
progress line per batch and one training-loss line per epoch; the warning
constructor exists only to state that no warning event is ever emitted — the
source contains no warning output at all. -/
inductive LogEvent where
  | batchProcessed (epoch batchNo : Nat)
  | epochTrainLoss (epoch : Nat) (loss : LossVal)
  | warningNonFinite (epoch batchNo : Nat)
deriving DecidableEq, Repr

/-- Predicate picking out warning-level events. -/
def LogEvent.isWarning : LogEvent → Bool
  | .warningNonFinite _ _ => true
  | _ => false

/-- Log lines printed by the training phase of one epoch of
`train_and_validate`: the per-batch progress lines followed by the average
training loss line. -/
def train_epoch_log (epoch : Nat) (batches : List (List LossVal)) : List LogEvent :=
  ((List.range batches.length).map fun i => LogEvent.batchProcessed epoch (i + 1)) ++
    [LogEvent.epochTrainLoss epoch (total_train_loss batches)]

theorem ctcLossCriterion_true_fin (b : List LossVal) :
    ∃ q : ℚ, ctcLossCriterion true b = .fin q := by
  have hany : ((b.map (applyZeroInfinity true)).any
      (fun l => l = LossVal.infinite)) = false := by
    rw [List.any_eq_false]
    intro x hx
    obtain ⟨l, _, rfl⟩ := List.mem_map.mp hx
    cases l <;> simp [applyZeroInfinity]
  unfold ctcLossCriterion ctcLossMean
  rw [hany]
  exact ⟨_, rfl⟩

/-- C9 counterexample: a training epoch whose single batch contains one
sample with a non-finite loss emits no warning-level log event — the event is
tolerated but never logged as a warning. -/
theorem nonfinite_sample_not_logged :
    (train_epoch_log 0 [[LossVal.infinite]]).all (fun e => !e.isWarning) = true := by
  decide

/-- C9 (amended): the loss library's non-finite tolerance is explicitly
enabled (`zero_infinity=True`), a sample with a non-finite loss contributes
exactly as a zero loss to the aggregate (so the epoch's accumulated training
loss is always finite and the epoch is not aborted), but the event is not
logged: the training phase emits no warning-level event. -/
theorem nonfinite_tolerated_but_unlogged :
    train_zero_infinity = true ∧
    (∀ pre post : List LossVal,
      ctcLossCriterion train_zero_infinity (pre ++ LossVal.infinite :: post) =
        ctcLossCriterion train_zero_infinity (pre ++ LossVal.fin 0 :: post)) ∧
    (∀ batches : List (List LossVal), ∃ q : ℚ, total_train_loss batches = .fin q) ∧
    (∀ (epoch : Nat) (batches : List (List LossVal)),
      ∀ e ∈ train_epoch_log epoch batches, e.isWarning = false) := by
  refine ⟨rfl, fun pre post => ?_, fun batches => ?_, fun epoch batches e he => ?_⟩
  · simp [ctcLossCriterion, applyZeroInfinity, train_zero_infinity]
  · rw [total_train_loss]
    generalize (0 : ℚ) = q0
    induction batches generalizing q0 with
    | nil => exact ⟨q0, rfl⟩
    | cons b rest ih =>
      obtain ⟨qb, hqb⟩ := ctcLossCriterion_true_fin b
      simp only [List.foldl_cons, train_zero_infinity, hqb, addLoss]
      exact ih _
  · rcases List.mem_append.mp he with hmem | hmem
    · obtain ⟨i, _, rfl⟩ := List.mem_map.mp hmem
      rfl
    · rw [List.mem_singleton.mp hmem]
      rfl

theorem nonfinite_tolerated_but_unlogged_witness :
    ctcLossCriterion train_zero_infinity ([] ++ LossVal.infinite :: []) =
      ctcLossCriterion train_zero_infinity ([] ++ LossVal.fin 0 :: []) ∧
    (∃ q : ℚ, total_train_loss [[LossVal.infinite]] = .fin q) ∧
    (LogEvent.batchProcessed 0 1).isWarning = false :=
  ⟨nonfinite_tolerated_but_unlogged.2.1 [] [],
   nonfinite_tolerated_but_unlogged.2.2.1 [[LossVal.infinite]],
   nonfinite_tolerated_but_unlogged.2.2.2 0 [[LossVal.infinite]]
     (LogEvent.batchProcessed 0 1) (by decide)⟩

/-! ## Round trip of `encode_label` and `decode_label` (C10) -/

/-- Integer code of a vocabulary character (default 0 outside the alphabet). -/
def codeOf (c : Char) : Nat := (vocabGet c).getD 0

theorem vocab_char_facts : ∀ c ∈ alphabet,
    vocabGet c = some (codeOf c) ∧ codeOf c ≠ 0 ∧ (codeOf c = 1 ↔ c = 'a') ∧
      invGet (codeOf c) = some [c] := by
  decide

theorem vocab_pairs_without_a : ∀ p ∈ vocabList, p.2 = 0 ∨ p.2 = 1 ∨ 'a' ∉ p.1 := by
  decide

theorem invGet_drops_a (n : Nat) (hn : ¬(n = 0 ∨ n = 1)) :
    'a' ∉ (invGet n).getD [] := by
  unfold invGet
  cases hfind : vocabList.find? (fun p => p.2 = n) with
  | none => simp
  | some p =>
    have hmem := List.mem_of_find?_eq_some hfind
    have hpred : p.2 = n := by simpa using List.find?_some hfind
    rcases vocab_pairs_without_a p hmem with h0 | h1 | hna
    · exact absurd (Or.inl (hpred ▸ h0)) hn
    · exact absurd (Or.inr (hpred ▸ h1)) hn
    · simpa using hna

/-- C10: for every label string over the vocabulary alphabet, encoding it with
`encode_label` and decoding the result with `decode_label` returns the string
with every occurrence of the character `a` deleted, because `decode_label`
skips code 1 — the code of `a` — in addition to the blank code 0; and the
validation loop's target reconstruction, which applies the same skip of codes
0 and 1, never produces a string containing `a`. -/
theorem encode_decode_drops_a :
    (∀ s : List Char, (∀ c ∈ s, c ∈ alphabet) →
      ∃ es, encode_label s = some es ∧
        decode_label es = some (s.filter (fun c => c ≠ 'a'))) ∧
    (∀ ids : List Nat, 'a' ∉ valTarget ids) := by
  constructor
  · intro s hs
    induction s with
    | nil => exact ⟨[], rfl, rfl⟩
    | cons c rest ih =>
      have hc := vocab_char_facts c (hs c (List.mem_cons_self c rest))
      obtain ⟨es, hes, hdec⟩ := ih fun x hx => hs x (List.mem_cons_of_mem _ hx)
      refine ⟨codeOf c :: es, ?_, ?_⟩
      · rw [encode_label, hc.1, hes]
      · by_cases ha : c = 'a'
        · have h1 : codeOf c = 1 := hc.2.2.1.mpr ha
          subst ha
          rw [decode_label, if_pos (Or.inr h1), hdec, List.filter_cons]
          simp
        · have h01 : ¬(codeOf c = 0 ∨ codeOf c = 1) := by
            rintro (h | h)
            · exact hc.2.1 h
            · exact ha (hc.2.2.1.mp h)
          rw [decode_label, if_neg h01, hc.2.2.2, hdec, List.filter_cons]
          simp [ha]
  · intro ids
    induction ids with
    | nil => simp [valTarget]
    | cons id rest ih =>
      by_cases h : id = 0 ∨ id = 1
      · simpa [valTarget, h] using ih
      · simp only [valTarget, if_neg h, List.mem_append]
        rintro (hmem | hmem)
        · exact invGet_drops_a id h hmem
        · exact ih hmem

theorem encode_decode_drops_a_witness :
    ∃ es, encode_label ['c', 'a', 'b'] = some es ∧
      decode_label es = some (['c', 'a', 'b'].filter (fun c => c ≠ 'a')) :=
  encode_decode_drops_a.1 ['c', 'a', 'b'] (by decide)

end STT
